import Mathlib

/-!
Verification of the German compound-word tokenizer core
(`pkg/tokenizer/compound.go`, `pkg/tokenizer/normalizer.go` (Dictionary part),
`pkg/tokenizer/tokenizer.go`).

Words are modelled as lists of runes (`List Char`), matching Go's
`[]rune(s)` view used throughout the splitting code.  Go's byte-oriented
string operations agree with the rune view for everything the code does
(UTF-8 byte order coincides with code-point order, and all slicing in the
source happens at rune boundaries).
-/

/-- A Go string viewed as its rune sequence. -/
abbrev Runes := List Char

/-- Rune view of a Lean string literal, used for concrete test words. -/
def rs (s : String) : Runes := s.data

/-- Rune-wise simple lowercase mapping: the effect of Go `strings.ToLower`
(which is `strings.Map(unicode.ToLower, s)`), restricted to ASCII letters and
the German letters this development exercises; identity on all other runes. -/
def goToLowerChar (c : Char) : Char :=
  if 'A' ≤ c ∧ c ≤ 'Z' then Char.ofNat (c.toNat + 32)
  else if c = 'Ä' then 'ä'
  else if c = 'Ö' then 'ö'
  else if c = 'Ü' then 'ü'
  else c

/-- Go `strings.ToLower` on the rune view (rune-wise map). -/
def goToLower (s : Runes) : Runes := s.map goToLowerChar

/-- Model of `normalizeUmlauts` from `compound.go`: the `strings.NewReplacer`
(ä→a, Ä→a, ö→o, Ö→o, ü→u, Ü→u, ß→ss) applied to the string; every pattern is a
single rune, so the replacer is a rune-wise expansion. -/
def normalizeUmlauts (s : Runes) : Runes :=
  (s.map (fun c =>
    if c = 'ä' ∨ c = 'Ä' then ['a']
    else if c = 'ö' ∨ c = 'Ö' then ['o']
    else if c = 'ü' ∨ c = 'Ü' then ['u']
    else if c = 'ß' then ['s', 's']
    else [c])).flatten

/-- Model of `germanSuffixes` from `compound.go`, in the exact source order
(first match wins during the fallback loop). -/
def germanSuffixes : List Runes :=
  [rs "ungen", rs "schaft", rs "heiten", rs "keiten",
   rs "ung", rs "heit", rs "keit", rs "tion", rs "isch", rs "lich", rs "chen", rs "lein",
   rs "haft", rs "bar", rs "sam", rs "tum", rs "ig", rs "er", rs "en", rs "em", rs "es",
   rs "st", rs "nd", rs "te", rs "el", rs "le", rs "se", rs "ße", rs "ze",
   rs "e", rs "s", rs "n", rs "t"]

/-- Go `strings.HasSuffix` on the rune view. -/
def hasSuffix (s suf : Runes) : Bool := suf.isSuffixOf s

/-- Go `strings.TrimSuffix s suf` under the knowledge that the suffix is
present: drop the suffix from the end. -/
def trimSuffix (s suf : Runes) : Runes := s.take (s.length - suf.length)

/-- Model of `CompoundSplitter.isWordInDict` from `compound.go`: direct dictionary hit
or umlaut-normalized hit, no suffix stripping.  The splitter's dictionary
handle is modelled by the membership function `contains`, which stands for
`dict.Contains` in a state whose compiled index is live. -/
def isWordInDict (contains : Runes → Bool) (word : Runes) : Bool :=
  let lower := goToLower word
  if contains lower then true
  else
    let normalized := normalizeUmlauts lower
    if normalized ≠ lower ∧ contains normalized then true else false

/-- Model of `CompoundSplitter.isValidWord` from `compound.go`: direct hit, umlaut hit,
or suffix-stripped hit (stem of rune length ≥ 2, direct or umlaut-folded),
trying `germanSuffixes` in order. -/
def isValidWord (contains : Runes → Bool) (word : Runes) : Bool :=
  let lower := goToLower word
  if contains lower then true
  else
    let normalized := normalizeUmlauts lower
    if normalized ≠ lower ∧ contains normalized then true
    else
      germanSuffixes.any (fun suf =>
        hasSuffix lower suf &&
          (let stem := trimSuffix lower suf
           decide (2 ≤ stem.length) &&
             (contains stem || contains (normalizeUmlauts stem))))

/-- The inner candidate loop of `CompoundSplitter.greedySplit`: try the
candidate length `n`, then `n-1`, ..., stopping at 2 (`for length := len(runes);
length >= 2; length--`).  A candidate consuming all remaining runes is checked
leniently (`isValidWord`), every other candidate strictly (`isWordInDict`).
Returns the first accepted length. -/
def findLen (contains : Runes → Bool) (runes : Runes) : Nat → Option Nat
  | 0 => none
  | 1 => none
  | n + 2 =>
    let len := n + 2
    let pre := runes.take len
    let rest := runes.drop len
    let ok := if rest.isEmpty then isValidWord contains pre else isWordInDict contains pre
    if ok then some len else findLen contains runes (n + 1)

/-- The outer loop of `CompoundSplitter.greedySplit`, fuelled by the length of
the remaining rune list (each accepted candidate removes at least two runes, so
`remaining.length` fuel always suffices).  `none` models the Go loop's
`return []string{word}` failure exit. -/
def greedyGo (contains : Runes → Bool) : Nat → Runes → Option (List Runes)
  | _, [] => some []
  | 0, _ :: _ => none
  | fuel + 1, r =>
    match findLen contains r r.length with
    | none => none
    | some len => (greedyGo contains fuel (r.drop len)).map (r.take len :: ·)

/-- Model of `CompoundSplitter.greedySplit` from `compound.go`. -/
def greedySplit (contains : Runes → Bool) (word : Runes) : List Runes :=
  match greedyGo contains word.length word with
  | some segs => segs
  | none => [word]

/-- Model of `CompoundSplitter.allSegmentsValid` from `compound.go`: every segment has
rune length ≥ 2 and passes the lenient check. -/
def allSegmentsValid (contains : Runes → Bool) (segs : List Runes) : Bool :=
  segs.all (fun seg => decide (2 ≤ seg.length) && isValidWord contains seg)

/-- Model of `CompoundSplitter.splitUncached` from `compound.go`. -/
def splitUncached (contains : Runes → Bool) (word : Runes) : List Runes :=
  let segs := greedySplit contains word
  if allSegmentsValid contains segs && decide (1 < segs.length) then segs
  else [word]

/-- Model of `CompoundSplitter.Split` with the cache disabled (and the pure computation
underlying every cache miss): lowercase, then `splitUncached`. -/
def splitNoCache (contains : Runes → Bool) (word : Runes) : List Runes :=
  splitUncached contains (goToLower word)

/-! ## The split cache (`hashicorp/golang-lru`)

The LRU cache is modelled as a recency-ordered association list, most recently
used entry first.  `Get` returns the value and moves the entry to the front;
`Add` inserts at the front and drops the least recently used entry once the
fixed capacity is exceeded. -/

/-- Model of `CacheSize` from `compound.go`. -/
def CacheSize : Nat := 100000

/-- The LRU cache contents: recency-ordered association list, most recently
used first. -/
abbrev Cache := List (Runes × List Runes)

/-- Key lookup in the association list (`lru.Cache.Get`, value part). -/
def cacheLookup (k : Runes) : Cache → Option (List Runes)
  | [] => none
  | (k', v) :: restc => if k' = k then some v else cacheLookup k restc

/-- Model of `lru.Cache.Get`: on a hit, also mark the entry as most recently used. -/
def cacheGet (c : Cache) (k : Runes) : Option (List Runes × Cache) :=
  match cacheLookup k c with
  | none => none
  | some v => some (v, (k, v) :: c.filter (fun p => p.1 ≠ k))

/-- Model of `lru.Cache.Add`: insert (or refresh) the entry at the most-recent position;
at most `CacheSize - 1` old entries survive, which evicts exactly the least
recently used entry when a new key arrives at capacity. -/
def cacheAdd (c : Cache) (k : Runes) (v : List Runes) : Cache :=
  (k, v) :: (c.filter (fun p => p.1 ≠ k)).take (CacheSize - 1)

/-- Model of `CompoundSplitter` from `compound.go`: the dictionary handle is passed
explicitly at each call (it is a pointer shared with the owning tokenizer), so
the struct state is just the optional cache (`nil` when constructed by
`NewCompoundSplitterNoCache`). -/
structure CompoundSplitter where
  cache : Option Cache
deriving DecidableEq

/-- Model of `CompoundSplitter.Split` from `compound.go`: lowercase, consult the cache
when enabled, otherwise compute `splitUncached` and store the result. -/
def CompoundSplitter.Split (contains : Runes → Bool) (s : CompoundSplitter)
    (word : Runes) : List Runes × CompoundSplitter :=
  let lower := goToLower word
  match s.cache with
  | none => (splitUncached contains lower, s)
  | some c =>
    match cacheGet c lower with
    | some (r, c') => (r, ⟨some c'⟩)
    | none =>
      let r := splitUncached contains lower
      (r, ⟨some (cacheAdd c lower r)⟩)

/-- Model of `CompoundSplitter.ClearCache` from `compound.go`: purge the cache when it
is enabled, no-op otherwise. -/
def CompoundSplitter.ClearCache (s : CompoundSplitter) : CompoundSplitter :=
  match s.cache with
  | none => s
  | some _ => ⟨some []⟩

/-! ## The Dictionary (`normalizer.go`, Dictionary part)

The compiled index (a vellum FST) is modelled by its key list: `fst.Get(w)`
is exact-membership of `w` in the key list.  `fst = none` models the Go
`d.fst == nil` state (after `Close`, or after a failed rebuild), in which a
lookup dereferences a nil pointer.  Disk effects are modelled by an explicit
environment saying which of the rebuild's fallible steps succeed. -/

/-- Errors returned by the Go code, classified by the step that failed. -/
inductive GoErr where
  | ioFail      -- `os.Open` of the source text file failed during load
  | createFail  -- `os.Create` of the index file failed
  | buildFail   -- the vellum builder (insert/close) failed
  | openFail    -- `vellum.Open` of the freshly written index failed
  | saveFail    -- `saveTextFile` write-back failed
deriving DecidableEq

/-- Which fallible disk steps of `rebuildFST` succeed. -/
structure DiskEnv where
  createOk : Bool
  buildOk : Bool
  openOk : Bool
  saveOk : Bool
deriving DecidableEq

/-- All rebuild steps succeed. -/
def DiskEnv.allOk (e : DiskEnv) : Bool :=
  e.createOk && e.buildOk && e.openOk && e.saveOk

/-- Go byte-wise lexicographic string order (`sort.Strings`); on rune lists
code-point order coincides with UTF-8 byte order. -/
def lexLe : Runes → Runes → Bool
  | [], _ => true
  | _ :: _, [] => false
  | a :: as, b :: bs => if a < b then true else if b < a then false else lexLe as bs

/-- Sorted insertion used to model `sort.Strings`. -/
def insertSorted (w : Runes) : List Runes → List Runes
  | [] => [w]
  | x :: xs => if lexLe w x then w :: x :: xs else x :: insertSorted w xs

/-- Model of `sort.Strings` on the collected word set. -/
def sortRunes (l : List Runes) : List Runes := l.foldr insertSorted []

/-- Model of `Dictionary` from `normalizer.go`: the word set (keys of the Go
`map[string]struct{}`, the source of truth) and the loaded compiled index
(`none` = nil FST pointer).  The file paths are fixed; disk contents are
modelled explicitly where a claim needs them. -/
structure Dictionary where
  words : List Runes
  fst : Option (List Runes)
deriving DecidableEq

/-- Insertion into the key set of the Go word map. -/
def insertWord (l : List Runes) (w : Runes) : List Runes :=
  if w ∈ l then l else l ++ [w]

/-- Model of `Dictionary.Contains` from `normalizer.go`: lowercase, then `fst.Get`.
`none` models the run-time fault of calling `Get` on a nil FST pointer. -/
def Dictionary.Contains (d : Dictionary) (w : Runes) : Option Bool :=
  d.fst.map (fun f => decide (goToLower w ∈ f))

/-- Model of `dict.Contains` in a state whose compiled index `f` is live: the total
boolean membership test the compound splitter consults. -/
def fstContains (f : List Runes) (w : Runes) : Bool := decide (goToLower w ∈ f)

/-- Model of `Dictionary.rebuildFST` from `normalizer.go`: close the old index (the
field is nil from here on), sort the word set, write and reopen the fresh
index, then write the sorted word list back to the text file.  Each fallible
step consults the disk environment; the first failure is returned and leaves
the state exactly as the Go code does at that point. -/
def rebuildFST (env : DiskEnv) (d : Dictionary) : Dictionary × Option GoErr :=
  let d0 : Dictionary := { d with fst := none }
  if env.createOk = false then (d0, some .createFail)
  else if env.buildOk = false then (d0, some .buildFail)
  else if env.openOk = false then (d0, some .openFail)
  else
    let d1 : Dictionary := { d0 with fst := some (sortRunes d.words) }
    if env.saveOk = false then (d1, some .saveFail) else (d1, none)

/-- Model of `Dictionary.AddWord` from `normalizer.go`: lowercase, insert into the word
map, rebuild (which also persists); the rebuild's error is returned. -/
def Dictionary.AddWord (env : DiskEnv) (d : Dictionary) (w : Runes) :
    Dictionary × Option GoErr :=
  rebuildFST env { d with words := insertWord d.words (goToLower w) }

/-- Model of `Dictionary.RemoveWord` from `normalizer.go`: lowercase, delete from the
word map, rebuild (which also persists); the rebuild's error is returned. -/
def Dictionary.RemoveWord (env : DiskEnv) (d : Dictionary) (w : Runes) :
    Dictionary × Option GoErr :=
  rebuildFST env { d with words := d.words.filter (fun v => v ≠ goToLower w) }

/-- Model of `Dictionary.Close` from `normalizer.go`: close the index and set the
pointer to nil (closing the in-memory FST never fails in the model). -/
def Dictionary.Close (d : Dictionary) : Dictionary × Option GoErr :=
  ({ d with fst := none }, none)

/-! ## Text-file persistence (`loadTextFile` / `saveTextFile`) -/

/-- Model of `unicode.IsSpace` restricted to the space runes of the Latin-1 range
(the ones Go's `strings.TrimSpace` fast path handles); identity of the model
on the higher Unicode space runes is irrelevant to the claims. -/
def goIsSpace (c : Char) : Bool :=
  c = ' ' || c = '\t' || c = '\n' || c = '\x0b' || c = '\x0c' || c = '\r' ||
    c = '\x85' || c = '\xa0'

/-- Go `strings.TrimSpace`: drop space runes from both ends. -/
def trimSpace (s : Runes) : Runes :=
  ((s.dropWhile goIsSpace).reverse.dropWhile goIsSpace).reverse

/-- Split file content at newline runes.  A final piece is always produced
(empty when the content ends in a newline); `bufio.Scanner` does not emit that
trailing empty piece, but the loader skips blank lines anyway, so the loaded
word set is unaffected. -/
def splitOnNl : Runes → List Runes
  | [] => [[]]
  | c :: restc =>
    match splitOnNl restc with
    | [] => [[]]
    | l :: ls => if c = '\n' then [] :: l :: ls else (c :: l) :: ls

/-- Model of `bufio.ScanLines` strips one trailing carriage return from each line. -/
def dropCR (line : Runes) : Runes :=
  if line.getLast? = some '\r' then line.dropLast else line

/-- The lines the `bufio.Scanner` loop of `loadTextFile` iterates over. -/
def scanLines (content : Runes) : List Runes := (splitOnNl content).map dropCR

/-- One iteration of the `loadTextFile` scan: trim the line, skip it when blank
or starting with `#`, otherwise yield the lowercased word. -/
def goodWord (line : Runes) : Option Runes :=
  let word := trimSpace line
  if word = [] ∨ word.head? = some '#' then none else some (goToLower word)

/-- Fold of the `loadTextFile` loop: insert each accepted word into the word
map's key set. -/
def processLine (acc : List Runes) (line : Runes) : List Runes :=
  match goodWord line with
  | none => acc
  | some w => insertWord acc w

/-- Model of `Dictionary.loadTextFile` from `normalizer.go`, as a function of the text
file's content: the word set it builds. -/
def loadWords (content : Runes) : List Runes :=
  (scanLines content).foldl processLine []

/-- Model of `Dictionary.saveTextFile` from `normalizer.go`, as a function of the word
set: the content written back (each word of the sorted list followed by a
newline). -/
def saveContent (words : List Runes) : Runes :=
  ((sortRunes words).map (fun w => w ++ ['\n'])).flatten

/-- The disk state `NewDictionary` runs against: the source text file's content
(`none` = `os.Open` fails), the pre-existing compiled index file (`none` =
absent or not openable by `vellum.Open`, given by its key list otherwise), and
the environment for a rebuild. -/
structure NewEnv where
  txtContent : Option Runes
  fstFile : Option (List Runes)
  rebuildEnv : DiskEnv
deriving DecidableEq

/-- Model of `NewDictionary` from `normalizer.go`: load the text file, then
`loadOrBuildFST` — adopt a pre-existing index file as-is when `vellum.Open`
succeeds on it, otherwise rebuild from the loaded word set. -/
def newDictionary (env : NewEnv) : Except GoErr Dictionary :=
  match env.txtContent with
  | none => .error .ioFail
  | some content =>
    let d : Dictionary := { words := loadWords content, fst := none }
    match env.fstFile with
    | some f => .ok { d with fst := some f }
    | none =>
      match rebuildFST env.rebuildEnv d with
      | (d', none) => .ok d'
      | (_, some e) => .error e

/-! ## The Tokenizer (`tokenizer.go`) -/

/-- Model of `Tokenizer` from `tokenizer.go`: the dictionary and the compound splitter
(which shares the dictionary pointer).  The normalization pipeline is outside
the claims and is not modelled. -/
structure GoTokenizer where
  dict : Dictionary
  splitter : CompoundSplitter
deriving DecidableEq

/-- Model of `Tokenizer.AddWord` from `tokenizer.go`: `t.dict.AddWord(word)` — the Go
method has no return value, so the error of the dictionary mutation is
discarded, and the splitter (with its cache) is untouched. -/
def GoTokenizer.AddWord (env : DiskEnv) (t : GoTokenizer) (w : Runes) :
    GoTokenizer :=
  { t with dict := (Dictionary.AddWord env t.dict w).1 }

/-- Model of `Tokenizer.RemoveWord` from `tokenizer.go`: `t.dict.RemoveWord(word)` —
error discarded, splitter cache untouched. -/
def GoTokenizer.RemoveWord (env : DiskEnv) (t : GoTokenizer) (w : Runes) :
    GoTokenizer :=
  { t with dict := (Dictionary.RemoveWord env t.dict w).1 }

/-- A `Split` call made through the tokenizer's splitter: it consults the
shared dictionary, so the dictionary's compiled index must be live (`none`
models the nil-index fault a lookup would hit). -/
def GoTokenizer.Split (t : GoTokenizer) (w : Runes) :
    Option (List Runes × GoTokenizer) :=
  match t.dict.fst with
  | none => none
  | some f =>
    let p := CompoundSplitter.Split (fstContains f) t.splitter w
    some (p.1, { t with splitter := p.2 })

/-- Model of `Tokenizer.ClearCache` from `tokenizer.go`. -/
def GoTokenizer.ClearCache (t : GoTokenizer) : GoTokenizer :=
  { t with splitter := t.splitter.ClearCache }

/-! ## Helper lemmas -/

theorem mem_insertSorted (a w : Runes) (l : List Runes) :
    a ∈ insertSorted w l ↔ a = w ∨ a ∈ l := by
  induction l with
  | nil => simp [insertSorted]
  | cons x xs ih =>
    by_cases h : lexLe w x = true
    · simp [insertSorted, h]
    · simp only [insertSorted, if_neg h, List.mem_cons, ih]
      tauto

theorem mem_sortRunes (a : Runes) (l : List Runes) :
    a ∈ sortRunes l ↔ a ∈ l := by
  induction l with
  | nil => simp [sortRunes]
  | cons x xs ih =>
    show a ∈ insertSorted x (sortRunes xs) ↔ _
    rw [mem_insertSorted]
    simp [ih]

theorem mem_insertWord (a w : Runes) (l : List Runes) :
    a ∈ insertWord l w ↔ a ∈ l ∨ a = w := by
  unfold insertWord
  by_cases h : w ∈ l
  · simp only [if_pos h]
    constructor
    · exact Or.inl
    · rintro (ha | rfl) <;> assumption
  · simp [if_neg h]

theorem greedyGo_flatten (contains : Runes → Bool) :
    ∀ (fuel : Nat) (r : Runes) (segs : List Runes),
      greedyGo contains fuel r = some segs → segs.flatten = r := by
  intro fuel
  induction fuel with
  | zero =>
    intro r segs h
    cases r with
    | nil =>
      simp only [greedyGo, Option.some.injEq] at h
      subst h; rfl
    | cons a t => simp [greedyGo] at h
  | succ f ih =>
    intro r segs h
    cases r with
    | nil =>
      simp only [greedyGo, Option.some.injEq] at h
      subst h; rfl
    | cons a t =>
      rw [greedyGo] at h
      split at h
      · exact absurd h (by simp)
      · rw [Option.map_eq_some'] at h
        obtain ⟨segs', hgo, hsegs⟩ := h
        subst hsegs
        rw [List.flatten_cons, ih _ _ hgo, List.take_append_drop]
      · simp

theorem greedySplit_flatten (contains : Runes → Bool) (w : Runes) :
    (greedySplit contains w).flatten = w := by
  unfold greedySplit
  cases h : greedyGo contains w.length w with
  | none => simp
  | some segs => exact greedyGo_flatten contains _ _ _ h

theorem splitUncached_flatten (contains : Runes → Bool) (w : Runes) :
    (splitUncached contains w).flatten = w := by
  unfold splitUncached
  by_cases h : (allSegmentsValid contains (greedySplit contains w) &&
      decide (1 < (greedySplit contains w).length)) = true
  · simp only [h, if_true]
    exact greedySplit_flatten contains w
  · simp only [h, if_false]
    simp

/-- Shape of every `splitUncached` result: the unsplit original word, or a
validated decomposition into more than one segment. -/
theorem splitUncached_spec (contains : Runes → Bool) (w : Runes) :
    splitUncached contains w = [w] ∨
      (1 < (splitUncached contains w).length ∧
        allSegmentsValid contains (splitUncached contains w) = true) := by
  unfold splitUncached
  by_cases h : (allSegmentsValid contains (greedySplit contains w) &&
      decide (1 < (greedySplit contains w).length)) = true
  · right
    simp only [h, if_true]
    rw [Bool.and_eq_true, decide_eq_true_eq] at h
    exact ⟨h.2, h.1⟩
  · left
    simp [h]

theorem splitUncached_ne_nil (contains : Runes → Bool) (w : Runes) :
    splitUncached contains w ≠ [] := by
  rcases splitUncached_spec contains w with h | h
  · simp [h]
  · exact List.ne_nil_of_length_pos (Nat.lt_of_lt_of_le Nat.zero_lt_one (Nat.le_of_lt h.1))

theorem cacheLookup_cacheAdd_self (c : Cache) (k : Runes) (v : List Runes) :
    cacheLookup k (cacheAdd c k v) = some v := by
  simp [cacheAdd, cacheLookup]

theorem cacheLookup_mem (k : Runes) (v : List Runes) :
    ∀ c : Cache, cacheLookup k c = some v → (k, v) ∈ c := by
  intro c
  induction c with
  | nil => simp [cacheLookup]
  | cons p restc ih =>
    obtain ⟨k', v'⟩ := p
    intro hl
    rw [cacheLookup] at hl
    by_cases h : k' = k
    · rw [if_pos h] at hl
      injection hl with hv
      subst hv
      subst h
      exact List.mem_cons_self _ _
    · rw [if_neg h] at hl
      exact List.mem_cons_of_mem _ (ih hl)

theorem length_dropWhile_le (p : Char → Bool) (l : Runes) :
    (l.dropWhile p).length ≤ l.length := by
  induction l with
  | nil => simp
  | cons a t ih =>
    by_cases h : p a
    · rw [List.dropWhile_cons, if_pos h]
      exact Nat.le_succ_of_le ih
    · rw [List.dropWhile_cons, if_neg h]

theorem dropWhile_eq_self_of_length (p : Char → Bool) (l : Runes)
    (h : (l.dropWhile p).length = l.length) : l.dropWhile p = l := by
  cases l with
  | nil => rfl
  | cons a t =>
    by_cases hp : p a
    · rw [List.dropWhile_cons, if_pos hp] at h ⊢
      exact absurd h (Nat.ne_of_lt (Nat.lt_succ_of_le (length_dropWhile_le p t)))
    · rw [List.dropWhile_cons, if_neg hp]

theorem dropWhile_head_false (p : Char → Bool) (l : Runes)
    (h : l.dropWhile p = l) (c : Char) (hc : l.head? = some c) : p c = false := by
  cases l with
  | nil => simp at hc
  | cons a t =>
    have hac : a = c := by simpa using hc
    rw [← hac]
    by_cases hp : p a
    · rw [List.dropWhile_cons, if_pos hp] at h
      have h1 := length_dropWhile_le p t
      have h2 := congrArg List.length h
      simp at h2
      exact absurd h2 (by omega)
    · exact Bool.eq_false_iff.mpr hp

/-- A word fixed by `TrimSpace` does not end in a space rune; in particular a
line holding it is unchanged by the scanner's carriage-return stripping. -/
theorem trimSpace_fix_getLast (w : Runes) (h : trimSpace w = w) (c : Char)
    (hc : w.getLast? = some c) : goIsSpace c = false := by
  unfold trimSpace at h
  have hlen : ((w.dropWhile goIsSpace).reverse.dropWhile goIsSpace).length = w.length := by
    have := congrArg List.length h
    simpa using this
  have hule : (w.dropWhile goIsSpace).length ≤ w.length := length_dropWhile_le _ w
  have hdle : ((w.dropWhile goIsSpace).reverse.dropWhile goIsSpace).length
      ≤ (w.dropWhile goIsSpace).length := by
    have := length_dropWhile_le goIsSpace (w.dropWhile goIsSpace).reverse
    simpa using this
  have huw : w.dropWhile goIsSpace = w :=
    dropWhile_eq_self_of_length _ _ (by omega)
  rw [huw] at h
  have hrev : w.reverse.dropWhile goIsSpace = w.reverse := by
    have := congrArg List.reverse h
    simpa using this
  refine dropWhile_head_false goIsSpace w.reverse hrev c ?_
  rw [List.head?_reverse]
  exact hc

theorem dropCR_of_trimSpace_fix (w : Runes) (h : trimSpace w = w) :
    dropCR w = w := by
  unfold dropCR
  cases hl : w.getLast? with
  | none => simp
  | some c =>
    have hns := trimSpace_fix_getLast w h c hl
    by_cases hcr : c = '\r'
    · subst hcr
      simp [goIsSpace] at hns
    · simp [hl, hcr]

theorem splitOnNl_ne_nil (s : Runes) : splitOnNl s ≠ [] := by
  cases s with
  | nil => simp [splitOnNl]
  | cons c t =>
    rw [splitOnNl]
    cases h : splitOnNl t with
    | nil => simp
    | cons l ls =>
      by_cases hc : c = '\n' <;> simp [hc]

theorem splitOnNl_append_word (w s : Runes) (hw : '\n' ∉ w) :
    splitOnNl (w ++ '\n' :: s) = w :: splitOnNl s := by
  induction w with
  | nil =>
    rw [List.nil_append, splitOnNl]
    cases h : splitOnNl s with
    | nil => exact absurd h (splitOnNl_ne_nil s)
    | cons l ls => simp
  | cons a t ih =>
    have ha : a ≠ '\n' := fun hcon => hw (hcon ▸ List.mem_cons_self a t)
    have ht : '\n' ∉ t := fun hcon => hw (List.mem_cons_of_mem a hcon)
    rw [List.cons_append, splitOnNl, ih ht]
    simp [ha]

theorem splitOnNl_flatten (l : List Runes) (hl : ∀ w ∈ l, '\n' ∉ w) :
    splitOnNl ((l.map (fun w => w ++ ['\n'])).flatten) = l ++ [[]] := by
  induction l with
  | nil => simp [splitOnNl]
  | cons w t ih =>
    rw [List.map_cons, List.flatten_cons, List.append_assoc, List.singleton_append,
      splitOnNl_append_word w _ (hl w (List.mem_cons_self w t))]
    rw [ih (fun v hv => hl v (List.mem_cons_of_mem w hv))]
    rfl

theorem mem_foldl_processLine (v : Runes) :
    ∀ (lines : List Runes) (acc : List Runes),
      v ∈ lines.foldl processLine acc ↔
        v ∈ acc ∨ ∃ line ∈ lines, goodWord line = some v := by
  intro lines
  induction lines with
  | nil => simp
  | cons line restl ih =>
    intro acc
    rw [List.foldl_cons, ih]
    cases hg : goodWord line with
    | none =>
      have hpl : processLine acc line = acc := by unfold processLine; rw [hg]
      rw [hpl]
      constructor
      · rintro (ha | ⟨u, hu, hgu⟩)
        · exact Or.inl ha
        · exact Or.inr ⟨u, List.mem_cons_of_mem _ hu, hgu⟩
      · rintro (ha | ⟨u, hu, hgu⟩)
        · exact Or.inl ha
        · rcases List.mem_cons.mp hu with rfl | hu'
          · rw [hg] at hgu
            exact absurd hgu (by simp)
          · exact Or.inr ⟨u, hu', hgu⟩
    | some w =>
      have hpl : processLine acc line = insertWord acc w := by unfold processLine; rw [hg]
      rw [hpl, mem_insertWord]
      constructor
      · rintro ((ha | rfl) | ⟨u, hu, hgu⟩)
        · exact Or.inl ha
        · exact Or.inr ⟨line, List.mem_cons_self _ _, hg⟩
        · exact Or.inr ⟨u, List.mem_cons_of_mem _ hu, hgu⟩
      · rintro (ha | ⟨u, hu, hgu⟩)
        · exact Or.inl (Or.inl ha)
        · rcases List.mem_cons.mp hu with rfl | hu'
          · rw [hg] at hgu
            injection hgu with hwv
            exact Or.inl (Or.inr hwv.symm)
          · exact Or.inr ⟨u, hu', hgu⟩

/-- A well-formed dictionary word passes the load filter unchanged. -/
theorem goodWord_self (w : Runes) (hne : w ≠ []) (htr : trimSpace w = w)
    (hhash : w.head? ≠ some '#') (hlow : goToLower w = w) :
    goodWord w = some w := by
  unfold goodWord
  rw [htr, if_neg (by
    rintro (h | h)
    · exact hne h
    · exact hhash h)]
  rw [hlow]

theorem goodWord_nil : goodWord [] = none := rfl

/-- Save-then-load round trip, for word sets whose members survive the load
filter unchanged. -/
theorem loadWords_saveContent (words : List Runes)
    (hwf : ∀ w ∈ words, w ≠ [] ∧ trimSpace w = w ∧ w.head? ≠ some '#' ∧
      '\n' ∉ w ∧ goToLower w = w) :
    ∀ v, v ∈ loadWords (saveContent words) ↔ v ∈ words := by
  intro v
  have hwfs : ∀ w ∈ sortRunes words, w ≠ [] ∧ trimSpace w = w ∧ w.head? ≠ some '#' ∧
      '\n' ∉ w ∧ goToLower w = w :=
    fun w hw => hwf w ((mem_sortRunes w words).mp hw)
  unfold loadWords saveContent scanLines
  rw [splitOnNl_flatten _ (fun w hw => (hwfs w hw).2.2.2.1)]
  rw [List.map_append]
  have hmap : (sortRunes words).map dropCR = sortRunes words := by
    rw [List.map_congr_left (fun a ha => dropCR_of_trimSpace_fix a (hwfs a ha).2.1)]
    exact List.map_id _
  rw [hmap]
  have hnil : ([[]] : List Runes).map dropCR = [[]] := by simp [dropCR]
  rw [hnil]
  rw [mem_foldl_processLine]
  constructor
  · rintro (h0 | ⟨u, hu, hgu⟩)
    · simp at h0
    · rcases List.mem_append.mp hu with hus | hue
      · obtain ⟨hne, htr, hh, hnl, hlow⟩ := hwfs u hus
        rw [goodWord_self u hne htr hh hlow] at hgu
        injection hgu with huv
        rw [← huv]
        exact (mem_sortRunes u words).mp hus
      · have hu0 : u = [] := by simpa using hue
        rw [hu0, goodWord_nil] at hgu
        exact absurd hgu (by simp)
  · intro hv
    refine Or.inr ⟨v, List.mem_append.mpr (Or.inl ((mem_sortRunes v words).mpr hv)), ?_⟩
    obtain ⟨hne, htr, hh, hnl, hlow⟩ := hwf v hv
    exact goodWord_self v hne htr hh hlow

/-! ## Concrete fixtures used by counterexamples and witnesses -/

/-- A disk environment in which every rebuild step succeeds. -/
def envOK : DiskEnv := ⟨true, true, true, true⟩

/-- A disk environment in which only the text-file write-back fails. -/
def envSaveFail : DiskEnv := ⟨true, true, true, false⟩

/-- Dictionary with word set {haus, tier} and its freshly built index. -/
def dHT : Dictionary := ⟨[rs "haus", rs "tier"], some (sortRunes [rs "haus", rs "tier"])⟩

/-- Tokenizer owning `dHT`, with an enabled, empty split cache. -/
def tHT : GoTokenizer := ⟨dHT, ⟨some []⟩⟩

/-- The word set of the specified scenario: {brand, schutz, konzept}. -/
def bskWords : List Runes := [rs "brand", rs "schutz", rs "konzept"]

/-- The compiled index built from `bskWords`. -/
def bskIndex : List Runes := sortRunes bskWords

/-- Dictionary with word set {brand, schutz, konzept} and its index. -/
def dBSK : Dictionary := ⟨bskWords, some bskIndex⟩

/-! ## The claims -/

/-- Claim C4: `Split` is total — for every input (the empty string included) it
never fails and never returns an empty segment sequence; whenever it does not
return a validated multi-segment decomposition, it returns exactly the single
lowercased original word.  Stated for the pure splitting computation
(`Split` with the cache disabled / on any cache miss); totality is inherent in
the function being defined for every input. -/
theorem claim4_split_total (contains : Runes → Bool) (w : Runes) :
    splitNoCache contains w ≠ [] ∧
      (splitNoCache contains w = [goToLower w] ∨
        (1 < (splitNoCache contains w).length ∧
          allSegmentsValid contains (splitNoCache contains w) = true)) := by
  unfold splitNoCache
  exact ⟨splitUncached_ne_nil contains (goToLower w),
    splitUncached_spec contains (goToLower w)⟩

/-- Claim C5: whenever `Split` returns more than one segment, every returned
segment has rune length at least 2 and passes the lenient validity check
(`isValidWord`: direct hit, umlaut-folded hit, or suffix-stripped hit with a
residual stem of length ≥ 2). -/
theorem claim5_multiseg_segments_valid (contains : Runes → Bool) (w : Runes)
    (h : 1 < (splitNoCache contains w).length) :
    ∀ seg ∈ splitNoCache contains w,
      2 ≤ seg.length ∧ isValidWord contains seg = true := by
  unfold splitNoCache at h ⊢
  rcases splitUncached_spec contains (goToLower w) with hs | hs
  · rw [hs] at h
    simp at h
  · intro seg hseg
    have hall := List.all_eq_true.mp hs.2 seg hseg
    rw [Bool.and_eq_true, decide_eq_true_eq] at hall
    exact hall

/-- Witness for C5 at the concrete scenario dictionary {brand, schutz,
konzept} and input "brandschutzkonzept". -/
theorem claim5_multiseg_segments_valid_witness :
    1 < (splitNoCache (fstContains bskIndex) (rs "brandschutzkonzept")).length ∧
      ∀ seg ∈ splitNoCache (fstContains bskIndex) (rs "brandschutzkonzept"),
        2 ≤ seg.length ∧ isValidWord (fstContains bskIndex) seg = true :=
  ⟨by decide, claim5_multiseg_segments_valid (fstContains bskIndex)
    (rs "brandschutzkonzept") (by decide)⟩

/-- Claim C6: with the lexicon word set exactly {brand, schutz, konzept}, the
greedy left-to-right algorithm yields
`Split "brandschutzkonzept" = ["brand", "schutz", "konzept"]` — both as the
pure computation and through a fresh tokenizer owning that dictionary. -/
theorem claim6_brandschutzkonzept :
    splitNoCache (fstContains bskIndex) (rs "brandschutzkonzept")
        = [rs "brand", rs "schutz", rs "konzept"] ∧
      (GoTokenizer.Split ⟨dBSK, ⟨some []⟩⟩ (rs "brandschutzkonzept")).map Prod.fst
        = some [rs "brand", rs "schutz", rs "konzept"] := by
  constructor
  · decide
  · decide

/-- Claim C9: under unchanged lexicon state, a `Split` call that misses the
cache computes the decomposition and stores it, and the immediately following
`Split` of the same word hits the cache and returns the identical sequence. -/
theorem claim9_cache_hit_miss_idempotent (contains : Runes → Bool) (c : Cache)
    (w : Runes) (hmiss : cacheLookup (goToLower w) c = none) :
    (CompoundSplitter.Split contains ⟨some c⟩ w).1
        = splitUncached contains (goToLower w) ∧
      (CompoundSplitter.Split contains
          (CompoundSplitter.Split contains ⟨some c⟩ w).2 w).1
        = (CompoundSplitter.Split contains ⟨some c⟩ w).1 := by
  have h1 : CompoundSplitter.Split contains ⟨some c⟩ w =
      (splitUncached contains (goToLower w),
        ⟨some (cacheAdd c (goToLower w) (splitUncached contains (goToLower w)))⟩) := by
    simp only [CompoundSplitter.Split, cacheGet, hmiss]
  rw [h1]
  refine ⟨rfl, ?_⟩
  simp only [CompoundSplitter.Split, cacheGet, cacheLookup_cacheAdd_self]

/-- Witness for C9: empty cache, scenario dictionary, input
"brandschutzkonzept". -/
theorem claim9_cache_hit_miss_idempotent_witness :
    cacheLookup (goToLower (rs "brandschutzkonzept")) [] = none ∧
      ((CompoundSplitter.Split (fstContains bskIndex) ⟨some []⟩
            (rs "brandschutzkonzept")).1
          = splitUncached (fstContains bskIndex)
              (goToLower (rs "brandschutzkonzept")) ∧
        (CompoundSplitter.Split (fstContains bskIndex)
            (CompoundSplitter.Split (fstContains bskIndex) ⟨some []⟩
                (rs "brandschutzkonzept")).2 (rs "brandschutzkonzept")).1
          = (CompoundSplitter.Split (fstContains bskIndex) ⟨some []⟩
              (rs "brandschutzkonzept")).1) :=
  ⟨rfl, claim9_cache_hit_miss_idempotent (fstContains bskIndex) []
    (rs "brandschutzkonzept") rfl⟩

/-- Cache well-formedness for claim C10: every cached sequence concatenates
back to its key (which `Split` guarantees for every entry it ever inserts,
whatever dictionary state the entry was computed against). -/
def cacheJoinInv (s : CompoundSplitter) : Prop :=
  ∀ c, s.cache = some c → ∀ p ∈ c, p.2.flatten = p.1

/-- Claim C10: the segments returned by `Split w`, concatenated in order,
equal the lowercased input — nothing is dropped, duplicated or reordered —
and every `Split` call preserves the cache invariant that makes this hold for
cached answers as well. -/
theorem claim10_concat_partition (contains : Runes → Bool) (s : CompoundSplitter)
    (w : Runes) (hinv : cacheJoinInv s) :
    (CompoundSplitter.Split contains s w).1.flatten = goToLower w ∧
      cacheJoinInv (CompoundSplitter.Split contains s w).2 := by
  obtain ⟨oc⟩ := s
  cases oc with
  | none =>
    refine ⟨?_, ?_⟩
    · simpa [CompoundSplitter.Split] using splitUncached_flatten contains (goToLower w)
    · simpa [CompoundSplitter.Split] using hinv
  | some c =>
    cases hl : cacheLookup (goToLower w) c with
    | some v =>
      have hsplit : CompoundSplitter.Split contains ⟨some c⟩ w =
          (v, ⟨some ((goToLower w, v) :: c.filter (fun p => p.1 ≠ goToLower w))⟩) := by
        simp only [CompoundSplitter.Split, cacheGet, hl]
      rw [hsplit]
      have hv : v.flatten = goToLower w := hinv c rfl _ (cacheLookup_mem _ _ c hl)
      refine ⟨hv, ?_⟩
      intro c' hc' p hp
      injection hc' with hc'
      subst hc'
      rcases List.mem_cons.mp hp with rfl | hp'
      · exact hv
      · exact hinv c rfl p (List.mem_filter.mp hp').1
    | none =>
      have hsplit : CompoundSplitter.Split contains ⟨some c⟩ w =
          (splitUncached contains (goToLower w),
            ⟨some (cacheAdd c (goToLower w)
              (splitUncached contains (goToLower w)))⟩) := by
        simp only [CompoundSplitter.Split, cacheGet, hl]
      rw [hsplit]
      refine ⟨splitUncached_flatten contains (goToLower w), ?_⟩
      intro c' hc' p hp
      injection hc' with hc'
      subst hc'
      rcases List.mem_cons.mp hp with rfl | hp'
      · exact splitUncached_flatten contains (goToLower w)
      · exact hinv c rfl p (List.mem_filter.mp (List.mem_of_mem_take hp')).1

/-- Witness for C10: empty cache, scenario dictionary, input
"brandschutzkonzept". -/
theorem claim10_concat_partition_witness :
    (CompoundSplitter.Split (fstContains bskIndex) ⟨some []⟩
          (rs "brandschutzkonzept")).1.flatten
        = goToLower (rs "brandschutzkonzept") ∧
      cacheJoinInv (CompoundSplitter.Split (fstContains bskIndex) ⟨some []⟩
          (rs "brandschutzkonzept")).2 :=
  claim10_concat_partition (fstContains bskIndex) ⟨some []⟩
    (rs "brandschutzkonzept")
    (by
      intro c hc p hp
      injection hc with hc
      rw [← hc] at hp
      exact absurd hp (List.not_mem_nil p))

/-- Clearing the cache forces the next `Split` to recompute against the
current dictionary state. -/
theorem splitter_clear_recomputes (contains : Runes → Bool) (s : CompoundSplitter)
    (w : Runes) :
    (CompoundSplitter.Split contains s.ClearCache w).1
      = splitUncached contains (goToLower w) := by
  obtain ⟨oc⟩ := s
  cases oc <;> rfl

/-- The state after: tokenizer over {haus, tier} splits "haustier" (filling
the cache), then removes "tier" through the tokenizer (every disk step
succeeding). -/
def cx1_t2 : GoTokenizer :=
  ((GoTokenizer.Split tHT (rs "haustier")).map
    (fun p => GoTokenizer.RemoveWord envOK p.2 (rs "tier"))).getD tHT

/-- Counterexample to claim C1: after the successful `RemoveWord "tier"`
mutation performed through the owning tokenizer, `Split "haustier"` still
serves the cached `["haus", "tier"]` — the decomposition computed against the
pre-mutation lexicon — although the decomposition against the current lexicon
(word set {haus}) is `["haustier"]`.  The mutation does not invalidate the
split cache, so the cache does serve a stale result. -/
theorem claim1_stale_cache_counterexample :
    (GoTokenizer.Split tHT (rs "haustier")).map Prod.fst
        = some [rs "haus", rs "tier"] ∧
      cx1_t2.dict.words = [rs "haus"] ∧
      (GoTokenizer.Split cx1_t2 (rs "haustier")).map Prod.fst
        = some [rs "haus", rs "tier"] ∧
      cx1_t2.dict.fst.map (fun f => splitUncached (fstContains f) (rs "haustier"))
        = some [rs "haustier"] := by
  refine ⟨by decide, by decide, by decide, by decide⟩

/-- Claim C1 (amended): `Tokenizer.AddWord`/`RemoveWord` do not touch the
split cache, so a cached pre-mutation decomposition can still be served after
a mutation; invalidation is the owner's explicit responsibility.  Once
`ClearCache` is called, the next `Split` of any word is recomputed against the
dictionary's current live index, so no pre-mutation cache entry is served. -/
theorem claim1_clear_cache_recomputes (t : GoTokenizer) (w : Runes)
    (f : List Runes) (hf : t.dict.fst = some f) :
    (GoTokenizer.Split t.ClearCache w).map Prod.fst
      = some (splitUncached (fstContains f) (goToLower w)) := by
  obtain ⟨d, sp⟩ := t
  simp only at hf
  simp only [GoTokenizer.ClearCache, GoTokenizer.Split]
  rw [hf]
  exact congrArg some (splitter_clear_recomputes (fstContains f) sp w)

/-- Witness for the amended C1 at the post-mutation state of the
counterexample run: after clearing, `Split "haustier"` returns the
current-lexicon decomposition `["haustier"]`. -/
theorem claim1_clear_cache_recomputes_witness :
    cx1_t2.dict.fst = some [rs "haus"] ∧
      (GoTokenizer.Split cx1_t2.ClearCache (rs "haustier")).map Prod.fst
        = some (splitUncached (fstContains [rs "haus"])
            (goToLower (rs "haustier"))) :=
  ⟨by decide, claim1_clear_cache_recomputes cx1_t2 (rs "haustier") [rs "haus"]
    (by decide)⟩

deriving instance DecidableEq for Except

/-- The dictionary state produced by a load that found word "a" in the text
file but adopted a pre-existing index file containing only "b". -/
def dStale : Dictionary := ⟨[rs "a"], some [rs "b"]⟩

/-- Counterexample to claim C2: `NewDictionary` with text-file content "a\n"
and a pre-existing (valid but stale) index file for {b} succeeds, yet the
resulting state answers `Contains "a" = false` although "a" is in the word
set — after this successful load the compiled index does not reflect the word
set. -/
theorem claim2_load_drift_counterexample :
    newDictionary ⟨some (rs "a\n"), some [rs "b"], envOK⟩ = Except.ok dStale ∧
      rs "a" ∈ dStale.words ∧
      dStale.Contains (rs "a") = some false := by
  refine ⟨by decide, by decide, by decide⟩

theorem rebuildFST_allOk (env : DiskEnv) (d : Dictionary) (h : env.allOk = true) :
    rebuildFST env d = (⟨d.words, some (sortRunes d.words)⟩, none) := by
  obtain ⟨cb, bb, ob, sb⟩ := env
  simp only [DiskEnv.allOk, Bool.and_eq_true] at h
  obtain ⟨⟨⟨h1, h2⟩, h3⟩, h4⟩ := h
  subst h1
  subst h2
  subst h3
  subst h4
  simp [rebuildFST]

theorem contains_after_rebuild (wordsl : List Runes) (v : Runes) :
    Dictionary.Contains ⟨wordsl, some (sortRunes wordsl)⟩ v
      = some (decide (goToLower v ∈ wordsl)) := by
  show some (decide (goToLower v ∈ sortRunes wordsl))
    = some (decide (goToLower v ∈ wordsl))
  exact congrArg some (decide_eq_decide.mpr (mem_sortRunes _ _))

/-- Claim C2 (amended): after every successful mutation, and after every
successful load that rebuilt the index from the text file (no pre-existing
index file), `Contains v` answers exactly membership of the lowercased `v` in
the current word set.  (A load that adopts a pre-existing index file gives no
such guarantee — see the counterexample.) -/
theorem claim2_index_reflects_word_set (env : DiskEnv) (d : Dictionary)
    (w v txt : Runes) (d' : Dictionary) (hok : env.allOk = true) :
    ((Dictionary.AddWord env d w).2 = none ∧
      (Dictionary.AddWord env d w).1.Contains v
        = some (decide (goToLower v ∈ (Dictionary.AddWord env d w).1.words)) ∧
      (Dictionary.RemoveWord env d w).2 = none ∧
      (Dictionary.RemoveWord env d w).1.Contains v
        = some (decide (goToLower v ∈ (Dictionary.RemoveWord env d w).1.words))) ∧
    (newDictionary ⟨some txt, none, env⟩ = Except.ok d' →
      d'.Contains v = some (decide (goToLower v ∈ d'.words))) := by
  have hadd := rebuildFST_allOk env
    { d with words := insertWord d.words (goToLower w) } hok
  have hrem := rebuildFST_allOk env
    { d with words := d.words.filter (fun u => u ≠ goToLower w) } hok
  constructor
  · refine ⟨?_, ?_, ?_, ?_⟩
    · unfold Dictionary.AddWord
      rw [hadd]
    · unfold Dictionary.AddWord
      rw [hadd]
      exact contains_after_rebuild _ v
    · unfold Dictionary.RemoveWord
      rw [hrem]
    · unfold Dictionary.RemoveWord
      rw [hrem]
      exact contains_after_rebuild _ v
  · intro hload
    have hre := rebuildFST_allOk env { words := loadWords txt, fst := none } hok
    simp only [newDictionary, hre] at hload
    injection hload with hX
    rw [← hX]
    exact contains_after_rebuild _ v

/-- Witness for the amended C2 at concrete inputs. -/
theorem claim2_index_reflects_word_set_witness :
    envOK.allOk = true ∧
      (((Dictionary.AddWord envOK dHT (rs "neu")).2 = none ∧
        (Dictionary.AddWord envOK dHT (rs "neu")).1.Contains (rs "haus")
          = some (decide (goToLower (rs "haus")
              ∈ (Dictionary.AddWord envOK dHT (rs "neu")).1.words)) ∧
        (Dictionary.RemoveWord envOK dHT (rs "neu")).2 = none ∧
        (Dictionary.RemoveWord envOK dHT (rs "neu")).1.Contains (rs "haus")
          = some (decide (goToLower (rs "haus")
              ∈ (Dictionary.RemoveWord envOK dHT (rs "neu")).1.words))) ∧
      (newDictionary ⟨some (rs "ab\n"), none, envOK⟩
            = Except.ok ⟨[rs "ab"], some (sortRunes [rs "ab"])⟩ →
        Dictionary.Contains ⟨[rs "ab"], some (sortRunes [rs "ab"])⟩ (rs "haus")
          = some (decide (goToLower (rs "haus")
              ∈ (⟨[rs "ab"], some (sortRunes [rs "ab"])⟩ : Dictionary).words)))) :=
  ⟨by decide, claim2_index_reflects_word_set envOK dHT (rs "neu") (rs "haus")
    (rs "ab\n") ⟨[rs "ab"], some (sortRunes [rs "ab"])⟩ (by decide)⟩

/-- A disk environment in which creating the index file fails. -/
def envCreateFail : DiskEnv := ⟨false, true, true, true⟩

/-- Counterexample to claim C3: after `Close`, the compiled-index pointer is
nil and `Contains` dereferences it — the call faults (`none` in the model)
instead of returning a boolean, so `Contains` is not total over states reached
after `Close`.  Before `Close` the same query returned `some true`. -/
theorem claim3_contains_after_close_counterexample :
    (Dictionary.Close dHT).1.Contains (rs "haus") = none ∧
      dHT.Contains (rs "haus") = some true := by
  refine ⟨rfl, by decide⟩

/-- Claim C3 (amended): in every state whose compiled index is live,
`Contains` is total and pure — it lowercases the input, queries the index and
returns a boolean (and, being a pure function of the state, mutates nothing);
but after `Close`, and after a mutation whose rebuild failed before a new
index was opened, the index pointer is nil and `Contains` faults. -/
theorem claim3_contains_total_on_live_index (d : Dictionary) (f : List Runes)
    (w : Runes) (env : DiskEnv) (hf : d.fst = some f) :
    d.Contains w = some (fstContains f w) ∧
      (d.Close).1.Contains w = none ∧
      (env.createOk = false → (Dictionary.AddWord env d w).1.Contains w = none) := by
  refine ⟨?_, rfl, ?_⟩
  · unfold Dictionary.Contains fstContains
    rw [hf]
    rfl
  · intro hcf
    unfold Dictionary.AddWord rebuildFST
    rw [hcf]
    simp [Dictionary.Contains]

/-- Witness for the amended C3 at the concrete dictionary over {haus, tier}. -/
theorem claim3_contains_total_on_live_index_witness :
    dHT.fst = some (sortRunes [rs "haus", rs "tier"]) ∧
      (dHT.Contains (rs "haus")
          = some (fstContains (sortRunes [rs "haus", rs "tier"]) (rs "haus")) ∧
        (dHT.Close).1.Contains (rs "haus") = none ∧
        (envCreateFail.createOk = false →
          (Dictionary.AddWord envCreateFail dHT (rs "haus")).1.Contains (rs "haus")
            = none)) :=
  ⟨rfl, claim3_contains_total_on_live_index dHT (sortRunes [rs "haus", rs "tier"])
    (rs "haus") envCreateFail rfl⟩

/-- Counterexample to claim C7: the word set {"#a"} — reachable through
`AddWord "#a"`, which lowercases but does not filter — is saved as the single
line "#a", which the loader skips as a comment line: the reloaded word set is
empty, so persisting and reloading does not yield an identical word set for
every lexicon word set. -/
theorem claim7_roundtrip_counterexample :
    (Dictionary.AddWord envOK ⟨[], some []⟩ (rs "#a")).1.words = [rs "#a"] ∧
      rs "#a" ∈ [rs "#a"] ∧
      rs "#a" ∉ loadWords (saveContent [rs "#a"]) := by
  refine ⟨by decide, by decide, by decide⟩

/-- Claim C7 (amended): for every word set whose members are nonempty, fixed
by whitespace trimming, not starting with `#`, free of newline runes and fixed
by lowercasing (all of which hold for ordinary dictionary words), persisting
the lexicon and reloading from the saved file yields an identical word set —
membership is preserved exactly, independent of the insertion order (the save
writes the sorted set, and membership is order-blind). -/
theorem claim7_roundtrip_wellformed (words : List Runes)
    (hwf : ∀ w ∈ words, w ≠ [] ∧ trimSpace w = w ∧ w.head? ≠ some '#' ∧
      '\n' ∉ w ∧ goToLower w = w) :
    ∀ v, v ∈ loadWords (saveContent words) ↔ v ∈ words :=
  loadWords_saveContent words hwf

/-- Witness for the amended C7 at the concrete word set {ab, cd}. -/
theorem claim7_roundtrip_wellformed_witness :
    (∀ w ∈ [rs "ab", rs "cd"], w ≠ [] ∧ trimSpace w = w ∧ w.head? ≠ some '#' ∧
        '\n' ∉ w ∧ goToLower w = w) ∧
      (rs "ab" ∈ loadWords (saveContent [rs "ab", rs "cd"])
        ↔ rs "ab" ∈ [rs "ab", rs "cd"]) :=
  ⟨by decide, claim7_roundtrip_wellformed [rs "ab", rs "cd"] (by decide) (rs "ab")⟩

theorem rebuildFST_err_iff (env : DiskEnv) (d : Dictionary) :
    (rebuildFST env d).2 = none ↔ env.allOk = true := by
  obtain ⟨cb, bb, ob, sb⟩ := env
  cases cb <;> cases bb <;> cases ob <;> cases sb <;>
    simp [rebuildFST, DiskEnv.allOk]

theorem rebuildFST_words (env : DiskEnv) (d : Dictionary) :
    (rebuildFST env d).1.words = d.words := by
  obtain ⟨cb, bb, ob, sb⟩ := env
  cases cb <;> cases bb <;> cases ob <;> cases sb <;> simp [rebuildFST]

/-- Counterexample to claim C8: when the text-file write-back fails, the
dictionary-level mutation does return a persistence error, but the public
tokenizer-level `AddWord` — whose Go signature returns nothing — completes and
yields only the new state: the failure is not reported to the caller at the
tokenizer's public mutation interface. -/
theorem claim8_error_discarded_counterexample :
    (Dictionary.AddWord envSaveFail dHT (rs "neu")).2 = some GoErr.saveFail ∧
      GoTokenizer.AddWord envSaveFail tHT (rs "neu")
        = ⟨(Dictionary.AddWord envSaveFail dHT (rs "neu")).1, ⟨some []⟩⟩ := by
  refine ⟨by decide, by decide⟩

/-- Claim C8 (amended): at the `Dictionary` interface each mutation performs
exactly one rebuild-and-persist attempt and returns its error unchanged (no
retry), succeeding exactly when every disk step succeeds; the in-memory word
set is mutated whether or not the attempt fails.  The tokenizer-level
`AddWord`/`RemoveWord` wrappers invoke that mutation but discard the returned
error, so failures are not propagated at the tokenizer's public interface. -/
theorem claim8_mutation_error_contract (env : DiskEnv) (d : Dictionary)
    (w : Runes) (t : GoTokenizer) :
    (Dictionary.AddWord env d w
        = rebuildFST env { d with words := insertWord d.words (goToLower w) }) ∧
      ((Dictionary.AddWord env d w).2 = none ↔ env.allOk = true) ∧
      (Dictionary.AddWord env d w).1.words = insertWord d.words (goToLower w) ∧
      (Dictionary.RemoveWord env d w
        = rebuildFST env
            { d with words := d.words.filter (fun u => u ≠ goToLower w) }) ∧
      ((Dictionary.RemoveWord env d w).2 = none ↔ env.allOk = true) ∧
      (Dictionary.RemoveWord env d w).1.words
        = d.words.filter (fun u => u ≠ goToLower w) ∧
      GoTokenizer.AddWord env t w
        = { t with dict := (Dictionary.AddWord env t.dict w).1 } ∧
      GoTokenizer.RemoveWord env t w
        = { t with dict := (Dictionary.RemoveWord env t.dict w).1 } :=
  ⟨rfl, rebuildFST_err_iff env _, rebuildFST_words env _,
    rfl, rebuildFST_err_iff env _, rebuildFST_words env _, rfl, rfl⟩
